import Mathlib

/-!
Verification development for the CUQIpy-FEniCS demo repository.

The repository's single source file, `demos/demo01_1D_Diffusion.ipynb`,
builds a Bayesian inverse problem for 1D steady-state diffusion and
samples its posterior with an adaptive preconditioned Crank-Nicolson
(pCN) sampler.  The library components it calls (`cuqi.sampler.pCN`,
`cuqi.distribution.Posterior`, `cuqi.distribution.GMRF`,
`Samples.burnthin`) are collaborators whose code is not in the
repository; they are modelled here from the specification, while the
notebook's own constructions (the noise standard deviation and
covariance of the likelihood) are embedded from the notebook code.
-/

namespace CuqiFenics

open Matrix

noncomputable section

/-- Modelled from the spec (`cuqi.sampler.pCN` is not in the repository):
the pCN proposal map `x_prop = sqrt(1 - beta^2) * x_cur + beta * ξ`,
applied componentwise to coefficient vectors. -/
def propose {n : ℕ} (beta : ℝ) (x ξ : Fin n → ℝ) : Fin n → ℝ :=
  fun i => Real.sqrt (1 - beta ^ 2) * x i + beta * ξ i

/-- Unnormalized log-density of the centered one-dimensional Gaussian
prior with standard deviation `σ` (a single coordinate of the
prior-covariance-scaled Gaussian). -/
def priorLogpdf (σ x : ℝ) : ℝ := -(x ^ 2) / (2 * σ ^ 2)

/-- Unnormalized log-density of the pCN proposal kernel: the proposal at
`y` given current state `x` is Gaussian with mean `sqrt(1-beta^2) * x`
and standard deviation `beta * σ`. -/
def pcnKernelLogpdf (σ beta x y : ℝ) : ℝ :=
  -((y - Real.sqrt (1 - beta ^ 2) * x) ^ 2) / (2 * beta ^ 2 * σ ^ 2)

lemma pcn_combine (σ beta : ℝ) (hσ : σ ≠ 0) (hb : beta ≠ 0) (s a b : ℝ) :
    -(a ^ 2) / (2 * σ ^ 2) + -((b - s * a) ^ 2) / (2 * beta ^ 2 * σ ^ 2)
      = -(beta ^ 2 * a ^ 2 + (b - s * a) ^ 2) / (2 * beta ^ 2 * σ ^ 2) := by
  field_simp
  ring

/-- C1: the pCN transition proposes
`x_prop = sqrt(1 - beta^2) * x_cur + beta * ξ`, and this proposal kernel
is in detailed balance with the Gaussian prior: for all states `x`, `y`,
`priorLogpdf x + log q(x → y) = priorLogpdf y + log q(y → x)`, hence the
prior is stationary for the proposal kernel when the likelihood is
constant. -/
theorem pcn_leaves_prior_invariant (σ beta x y : ℝ)
    (hσ : 0 < σ) (hb0 : 0 < beta) (hb1 : beta ≤ 1) :
    (∀ (n : ℕ) (xc ξ : Fin n → ℝ) (i : Fin n),
        propose beta xc ξ i = Real.sqrt (1 - beta ^ 2) * xc i + beta * ξ i) ∧
    priorLogpdf σ x + pcnKernelLogpdf σ beta x y
      = priorLogpdf σ y + pcnKernelLogpdf σ beta y x := by
  refine ⟨fun n xc ξ i => rfl, ?_⟩
  have hs : Real.sqrt (1 - beta ^ 2) ^ 2 = 1 - beta ^ 2 := by
    rw [Real.sq_sqrt]
    nlinarith
  set s := Real.sqrt (1 - beta ^ 2) with hsdef
  have hσ' : σ ≠ 0 := ne_of_gt hσ
  have hb' : beta ≠ 0 := ne_of_gt hb0
  have hnum : beta ^ 2 * x ^ 2 + (y - s * x) ^ 2
      = beta ^ 2 * y ^ 2 + (x - s * y) ^ 2 := by
    linear_combination (x ^ 2 - y ^ 2) * hs
  unfold priorLogpdf pcnKernelLogpdf
  rw [← hsdef, pcn_combine σ beta hσ' hb' s x y, pcn_combine σ beta hσ' hb' s y x, hnum]

/-- Witness for C1 at `σ = 1`, `beta = 1/2`, `x = 1`, `y = 2`. -/
theorem pcn_leaves_prior_invariant_witness :
    ((0:ℝ) < 1 ∧ (0:ℝ) < 1/2 ∧ (1/2:ℝ) ≤ 1) ∧
    ((∀ (n : ℕ) (xc ξ : Fin n → ℝ) (i : Fin n),
        propose (1/2) xc ξ i = Real.sqrt (1 - (1/2) ^ 2) * xc i + (1/2) * ξ i) ∧
      priorLogpdf 1 1 + pcnKernelLogpdf 1 (1/2) 1 2
        = priorLogpdf 1 2 + pcnKernelLogpdf 1 (1/2) 2 1) := by
  constructor
  · norm_num
  · have h := pcn_leaves_prior_invariant 1 (1/2) 1 2 (by norm_num) (by norm_num) (by norm_num)
    exact h

/-- Modelled from the spec (`cuqi.distribution` base class is not in the
repository): a distribution over coefficient vectors, with its dimension
and log-density. -/
structure Distribution where
  dim : ℕ
  logpdf : (ℕ → ℝ) → ℝ

/-- Modelled from the spec (the `Model` wrapper is not in the
repository): the forward operator with its domain and range
dimensions. -/
structure Model where
  domain_dim : ℕ
  range_dim : ℕ
  forward : (ℕ → ℝ) → (ℕ → ℝ)

/-- Modelled from the spec (`to_likelihood` is not in the repository):
a likelihood, i.e. a distribution with fixed observed data wrapped
around a forward model, exposing a log-likelihood of the parameter. -/
structure Likelihood where
  model : Model
  loglikelihood : (ℕ → ℝ) → ℝ

/-- Modelled from the spec (`cuqi.distribution.Posterior` is not in the
repository): the posterior borrows a likelihood and a prior and requires
`prior.dim == model.domain_dim`. -/
structure Posterior where
  likelihood : Likelihood
  prior : Distribution
  valid : prior.dim = likelihood.model.domain_dim

/-- Modelled from the spec: the unnormalized posterior log-density
`logpdf(x) = prior.logpdf(x) + likelihood.loglikelihood(x)`. -/
def Posterior.logpdf (post : Posterior) (x : ℕ → ℝ) : ℝ :=
  post.prior.logpdf x + post.likelihood.loglikelihood x

/-- Modelled from the spec: the posterior dimension is the prior
dimension. -/
def Posterior.dim (post : Posterior) : ℕ := post.prior.dim

/-- C3: under the precondition `prior.dim = model.domain_dim`, the
posterior log-density decomposes exactly as prior log-density plus
log-likelihood at every point of the domain, and the posterior dimension
equals the prior dimension. -/
theorem posterior_logpdf_decomposition (L : Likelihood) (P : Distribution)
    (h : P.dim = L.model.domain_dim) :
    (∀ x : ℕ → ℝ,
        (Posterior.mk L P h).logpdf x = P.logpdf x + L.loglikelihood x) ∧
    (Posterior.mk L P h).dim = P.dim :=
  ⟨fun _ => rfl, rfl⟩

/-- Witness for C3 on a concrete one-dimensional posterior. -/
theorem posterior_logpdf_decomposition_witness :
    ((1:ℕ) = 1) ∧
    ((∀ x : ℕ → ℝ,
        (Posterior.mk ⟨⟨1, 1, id⟩, fun _ => 2⟩ ⟨1, fun _ => 3⟩ rfl).logpdf x
          = (fun (_ : ℕ → ℝ) => (3:ℝ)) x + (fun (_ : ℕ → ℝ) => (2:ℝ)) x) ∧
      (Posterior.mk ⟨⟨1, 1, id⟩, fun _ => 2⟩ ⟨1, fun _ => 3⟩ rfl).dim = 1) :=
  ⟨rfl, posterior_logpdf_decomposition ⟨⟨1, 1, id⟩, fun _ => 2⟩ ⟨1, fun _ => 3⟩ rfl⟩

/-- Euclidean norm of a data vector, as `np.linalg.norm(...)` used by
the notebook on `problemInfo.exactData`. -/
def norm2 (d : List ℝ) : ℝ := Real.sqrt ((d.map fun t => t ^ 2).sum)

/-- From the notebook (cell defining the likelihood):
`sigma = np.linalg.norm(problemInfo.exactData)/SNR`. -/
def sigmaOf (exactData : List ℝ) (SNR : ℝ) : ℝ := norm2 exactData / SNR

/-- From the notebook: the likelihood noise covariance
`sigma**2 * np.eye(model.range_dim)`. -/
def noiseCov (range_dim : ℕ) (exactData : List ℝ) (SNR : ℝ) :
    Matrix (Fin range_dim) (Fin range_dim) ℝ :=
  sigmaOf exactData SNR ^ 2 • (1 : Matrix (Fin range_dim) (Fin range_dim) ℝ)

/-- C10: the noise covariance built by the notebook is the isotropic
matrix `sigma^2 * I` of size `range_dim`, whose entries are
`(‖exactData‖₂ / SNR)^2` on the diagonal and `0` elsewhere: the noise
level is a deterministic function of the exact data's Euclidean norm and
the SNR. -/
theorem noise_cov_isotropic (m : ℕ) (d : List ℝ) (SNR : ℝ) (i j : Fin m) :
    (noiseCov m d SNR i j
      = if i = j then (norm2 d / SNR) ^ 2 else 0) ∧
    sigmaOf d SNR = norm2 d / SNR := by
  refine ⟨?_, rfl⟩
  unfold noiseCov sigmaOf
  by_cases hij : i = j
  · simp [Matrix.smul_apply, Matrix.one_apply, hij]
  · simp [Matrix.smul_apply, Matrix.one_apply, hij]

/-- Modelled from the spec (error taxonomy, section 7): the outcome of
one likelihood evaluation at a proposed parameter.  `ok ll` is a
successful forward solve with log-likelihood `ll`; `solveFailure` is a
recoverable `ForwardEvaluationError` (PDE solve failed for this
proposal); `dimMismatch` is the non-recoverable configuration error
(dimension mismatch), promoted to fatal. -/
inductive LLResult where
  | ok (ll : ℝ)
  | solveFailure
  | dimMismatch

/-- Modelled from the spec: the pCN acceptance probability
`alpha = min(1, exp(ll_prop - ll_cur))`. -/
def alphaOf (llProp llCur : ℝ) : ℝ := min 1 (Real.exp (llProp - llCur))

/-- Modelled from the spec: the acceptance probability when the
proposal's log-likelihood may be `-infinity` (represented by `none`,
as produced by a recoverable forward-solve failure): `alpha = 0` there,
so any draw `u > 0` rejects. -/
def alphaOfExt (llProp : Option ℝ) (llCur : ℝ) : ℝ :=
  match llProp with
  | none => 0
  | some v => alphaOf v llCur

/-- Modelled from the spec (sampler `Running` state): current state
vector, current log-likelihood, acceptance count, step scale `beta`,
and the chain built so far. -/
structure PCNState (n : ℕ) where
  x_cur : Fin n → ℝ
  ll_cur : ℝ
  accCount : ℕ
  beta : ℝ
  chain : List (Fin n → ℝ)

/-- Outcome of one pCN transition: either the next `Running` state or a
fatal configuration failure. -/
inductive StepResult (n : ℕ) where
  | next (s : PCNState n)
  | fatal

/-- Modelled from the spec (one pCN transition, section 4.4): propose,
evaluate the likelihood (a recoverable forward-solve failure acts as
`ll_prop = -infinity`, hence auto-reject; a dimension mismatch is
fatal), accept iff `u ≤ alpha`, update the state accordingly, and append
the current state to the chain. -/
def pcnStep {n : ℕ} (ll : (Fin n → ℝ) → LLResult) (s : PCNState n)
    (ξ : Fin n → ℝ) (u : ℝ) : StepResult n :=
  let xp := propose s.beta s.x_cur ξ
  match ll xp with
  | .dimMismatch => .fatal
  | .solveFailure => .next { s with chain := s.chain ++ [s.x_cur] }
  | .ok llp =>
    if u ≤ alphaOf llp s.ll_cur then
      .next { s with x_cur := xp, ll_cur := llp, accCount := s.accCount + 1,
                     chain := s.chain ++ [xp] }
    else
      .next { s with chain := s.chain ++ [s.x_cur] }

/-- Terminal outcome of a sampling run: `converged` carries the chain
and the acceptance count; `failed` is the fatal-error terminal state,
with the in-progress chain discarded. -/
inductive RunResult (n : ℕ) where
  | converged (chain : List (Fin n → ℝ)) (accCount : ℕ)
  | failed

/-- Chain carried by a run result (empty when the run failed, since a
fatal error discards the chain). -/
def RunResult.chainOf {n : ℕ} : RunResult n → List (Fin n → ℝ)
  | .converged c _ => c
  | .failed => []

/-- Acceptance count carried by a run result. -/
def RunResult.accOf {n : ℕ} : RunResult n → ℕ
  | .converged _ a => a
  | .failed => 0

/-- Modelled from the spec: a pCN run consuming a random stream
`rand` (per iteration, a perturbation `ξ` and a uniform draw `u`),
starting at iteration `i` with `k` samples still requested. -/
def pcnRun {n : ℕ} (ll : (Fin n → ℝ) → LLResult)
    (rand : ℕ → (Fin n → ℝ) × ℝ) : ℕ → ℕ → PCNState n → RunResult n
  | _, 0, s => .converged s.chain s.accCount
  | i, k + 1, s =>
    match pcnStep ll s (rand i).1 (rand i).2 with
    | .next t => pcnRun ll rand (i + 1) k t
    | .fatal => .failed

lemma pcnStep_next_of_no_mismatch {n : ℕ} (ll : (Fin n → ℝ) → LLResult)
    (s : PCNState n) (ξ : Fin n → ℝ) (u : ℝ)
    (htotal : ∀ x, ll x ≠ .dimMismatch) :
    ∃ t, pcnStep ll s ξ u = .next t ∧ t.chain.length = s.chain.length + 1 := by
  cases hll : ll (propose s.beta s.x_cur ξ) with
  | ok llp =>
    by_cases hu : u ≤ alphaOf llp s.ll_cur
    · have hstep : pcnStep ll s ξ u = .next { s with x_cur := propose s.beta s.x_cur ξ, ll_cur := llp, accCount := s.accCount + 1, chain := s.chain ++ [propose s.beta s.x_cur ξ] } := by
        simp [pcnStep, hll, hu]
      exact ⟨_, hstep, by simp⟩
    · have hstep : pcnStep ll s ξ u = .next { s with chain := s.chain ++ [s.x_cur] } := by
        simp [pcnStep, hll, hu]
      exact ⟨_, hstep, by simp⟩
  | solveFailure =>
    have hstep : pcnStep ll s ξ u = .next { s with chain := s.chain ++ [s.x_cur] } := by
      simp [pcnStep, hll]
    exact ⟨_, hstep, by simp⟩
  | dimMismatch => exact absurd hll (htotal _)

lemma pcnRun_converged_of_no_mismatch {n : ℕ} (ll : (Fin n → ℝ) → LLResult)
    (rand : ℕ → (Fin n → ℝ) × ℝ) (htotal : ∀ x, ll x ≠ .dimMismatch) :
    ∀ (k i : ℕ) (s : PCNState n),
      ∃ c a, pcnRun ll rand i k s = .converged c a ∧
        c.length = s.chain.length + k := by
  intro k
  induction k with
  | zero => exact fun i s => ⟨s.chain, s.accCount, rfl, rfl⟩
  | succ m IH =>
    intro i s
    obtain ⟨t, ht, hlen⟩ :=
      pcnStep_next_of_no_mismatch ll s (rand i).1 (rand i).2 htotal
    obtain ⟨c, a, hc, hclen⟩ := IH (i + 1) t
    refine ⟨c, a, ?_, by omega⟩
    rw [pcnRun, ht]
    exact hc

/-- C2: the pCN acceptance step.  With `ll_prop` successfully computed,
`alpha = min(1, exp(ll_prop - ll_cur))`; if `u ≤ alpha` the step accepts
(sets `x_cur := x_prop`, `ll_cur := ll_prop`, increments the acceptance
count, and appends the new state), otherwise it rejects (retains `x_cur`
and appends the unchanged previous state, so a rejected step repeats
it); and a run requesting `Ns` samples from an empty chain produces a
chain of exactly `Ns` states. -/
theorem pcn_accept_reject_chain {n : ℕ} (ll : (Fin n → ℝ) → LLResult)
    (rand : ℕ → (Fin n → ℝ) × ℝ) (s : PCNState n) (ξ : Fin n → ℝ) (u : ℝ)
    (llp : ℝ) (hok : ll (propose s.beta s.x_cur ξ) = .ok llp)
    (htotal : ∀ x, ll x ≠ .dimMismatch) (Ns : ℕ) :
    alphaOf llp s.ll_cur = min 1 (Real.exp (llp - s.ll_cur)) ∧
    (u ≤ alphaOf llp s.ll_cur →
      pcnStep ll s ξ u
        = .next { s with x_cur := propose s.beta s.x_cur ξ, ll_cur := llp,
                         accCount := s.accCount + 1,
                         chain := s.chain ++ [propose s.beta s.x_cur ξ] }) ∧
    (¬ u ≤ alphaOf llp s.ll_cur →
      pcnStep ll s ξ u = .next { s with chain := s.chain ++ [s.x_cur] }) ∧
    (∃ c a, pcnRun ll rand 0 Ns { s with chain := [] } = .converged c a ∧
      c.length = Ns) := by
  refine ⟨rfl, ?_, ?_, ?_⟩
  · intro hu
    simp [pcnStep, hok, hu]
  · intro hu
    simp [pcnStep, hok, hu]
  · obtain ⟨c, a, hc, hlen⟩ :=
      pcnRun_converged_of_no_mismatch ll rand htotal Ns 0 { s with chain := [] }
    exact ⟨c, a, hc, by simpa using hlen⟩

/-- C4: a recoverable forward-solve failure at the proposal acts as
`ll_prop = -infinity` (acceptance probability `0`, so any positive
uniform draw rejects); the step emits the previous chain state
unchanged; sampling then continues to convergence (the chain does not
terminate); and only the configuration-level dimension mismatch is
promoted to a fatal step. -/
theorem pcn_forward_failure_auto_reject {n : ℕ} (ll : (Fin n → ℝ) → LLResult)
    (rand : ℕ → (Fin n → ℝ) × ℝ) (s : PCNState n) (ξ : Fin n → ℝ) (u : ℝ)
    (hfail : ll (propose s.beta s.x_cur ξ) = .solveFailure)
    (hu : 0 < u) (htotal : ∀ x, ll x ≠ .dimMismatch) (i k : ℕ) :
    (alphaOfExt none s.ll_cur = 0 ∧ ¬ u ≤ alphaOfExt none s.ll_cur) ∧
    pcnStep ll s ξ u = .next { s with chain := s.chain ++ [s.x_cur] } ∧
    (∃ c a, pcnRun ll rand i k { s with chain := s.chain ++ [s.x_cur] }
      = .converged c a) ∧
    (∀ (ll2 : (Fin n → ℝ) → LLResult) (s2 : PCNState n) (ξ2 : Fin n → ℝ)
        (u2 : ℝ), ll2 (propose s2.beta s2.x_cur ξ2) = .dimMismatch →
          pcnStep ll2 s2 ξ2 u2 = .fatal) := by
  refine ⟨⟨rfl, not_le.mpr hu⟩, ?_, ?_, ?_⟩
  · simp [pcnStep, hfail]
  · obtain ⟨c, a, hc, -⟩ := pcnRun_converged_of_no_mismatch ll rand htotal k i
      { s with chain := s.chain ++ [s.x_cur] }
    exact ⟨c, a, hc⟩
  · intro ll2 s2 ξ2 u2 h2
    simp [pcnStep, h2]

/-- Modelled from the spec (adaptation rule, section 4.4): at the end of
an adaptation block, if the block's empirical acceptance rate is above
the target, increase `beta` multiplicatively (bounded above by 1);
otherwise decrease it multiplicatively (bounded below by the positive
floor `flr`). -/
def adaptBeta (flr target up down beta rate : ℝ) : ℝ :=
  if target < rate then min 1 (beta * up) else max flr (beta * down)

/-- The step-scale sequence of an adaptive run: `betaSeq ... k` is the
step scale after `k` adaptation blocks with empirical acceptance rates
`rates 0, ..., rates (k-1)`. -/
def betaSeq (flr target up down beta0 : ℝ) (rates : ℕ → ℝ) : ℕ → ℝ
  | 0 => beta0
  | k + 1 =>
    adaptBeta flr target up down (betaSeq flr target up down beta0 rates k)
      (rates k)

/-- C7: throughout an adaptive run the step scale stays in the interval
`[flr, 1]`, hence strictly inside `(flr/2, 1]` for the smaller positive
floor `flr/2`: `beta` never collapses to `0` and never exceeds `1`. -/
theorem beta_stays_bounded (flr target up down beta0 : ℝ) (rates : ℕ → ℝ)
    (hflr0 : 0 < flr) (hflr1 : flr ≤ 1) (hup : 1 ≤ up)
    (hdown0 : 0 < down) (hdown1 : down ≤ 1)
    (hb0 : flr ≤ beta0) (hb1 : beta0 ≤ 1) :
    ∀ k, flr ≤ betaSeq flr target up down beta0 rates k ∧
      betaSeq flr target up down beta0 rates k ≤ 1 ∧
      flr / 2 < betaSeq flr target up down beta0 rates k ∧
      0 < betaSeq flr target up down beta0 rates k := by
  have key : ∀ k, flr ≤ betaSeq flr target up down beta0 rates k ∧
      betaSeq flr target up down beta0 rates k ≤ 1 := by
    intro k
    induction k with
    | zero => exact ⟨hb0, hb1⟩
    | succ m IH =>
      obtain ⟨hlo, hhi⟩ := IH
      set b := betaSeq flr target up down beta0 rates m with hb
      have hbpos : 0 ≤ b := le_trans (le_of_lt hflr0) hlo
      rw [betaSeq, adaptBeta]
      by_cases hrate : target < rates m
      · rw [if_pos hrate]
        constructor
        · refine le_min hflr1 ?_
          calc flr ≤ b := hlo
            _ = b * 1 := (mul_one b).symm
            _ ≤ b * up := by nlinarith
        · exact min_le_left _ _
      · rw [if_neg hrate]
        constructor
        · exact le_max_left _ _
        · refine max_le hflr1 ?_
          calc b * down ≤ b * 1 := by nlinarith
            _ = b := mul_one b
            _ ≤ 1 := hhi
  intro k
  obtain ⟨hlo, hhi⟩ := key k
  refine ⟨hlo, hhi, lt_of_lt_of_le (by linarith) hlo, lt_of_lt_of_le hflr0 hlo⟩

/-- C8: determinism of a sampling run.  The produced chain and the
acceptance-count diagnostic are functions of the seed's random stream,
the requested number of samples and the initial configuration alone: two
runs with equal seeds and equal `Ns` from the same initial state produce
identical chains and identical acceptance counts. -/
theorem pcn_deterministic {n : ℕ} (ll : (Fin n → ℝ) → LLResult)
    (randOfSeed : ℕ → ℕ → (Fin n → ℝ) × ℝ) (seed1 seed2 Ns1 Ns2 : ℕ)
    (s0 : PCNState n) (hseed : seed1 = seed2) (hNs : Ns1 = Ns2) :
    (pcnRun ll (randOfSeed seed1) 0 Ns1 s0).chainOf
        = (pcnRun ll (randOfSeed seed2) 0 Ns2 s0).chainOf ∧
    (pcnRun ll (randOfSeed seed1) 0 Ns1 s0).accOf
        = (pcnRun ll (randOfSeed seed2) 0 Ns2 s0).accOf ∧
    pcnRun ll (randOfSeed seed1) 0 Ns1 s0
        = pcnRun ll (randOfSeed seed2) 0 Ns2 s0 := by
  subst hseed
  subst hNs
  exact ⟨rfl, rfl, rfl⟩

/-- Concrete likelihood (always succeeds) used by the witnesses. -/
def wLL : (Fin 1 → ℝ) → LLResult := fun _ => .ok 0

/-- Concrete always-failing likelihood used by the witnesses. -/
def wLLfail : (Fin 1 → ℝ) → LLResult := fun _ => .solveFailure

/-- Concrete random stream used by the witnesses. -/
def wRand : ℕ → (Fin 1 → ℝ) × ℝ := fun _ => (fun _ => 0, 1)

/-- Concrete initial sampler state used by the witnesses. -/
def wState : PCNState 1 := ⟨fun _ => 0, 0, 0, 1, []⟩

/-- Witness for C2 at a concrete configuration. -/
theorem pcn_accept_reject_chain_witness :
    (wLL (propose wState.beta wState.x_cur (fun _ => 0)) = LLResult.ok 0 ∧
      (∀ x, wLL x ≠ LLResult.dimMismatch)) ∧
    (alphaOf 0 wState.ll_cur = min 1 (Real.exp (0 - wState.ll_cur)) ∧
      ((1/2 : ℝ) ≤ alphaOf 0 wState.ll_cur →
        pcnStep wLL wState (fun _ => 0) (1/2)
          = .next { wState with
              x_cur := propose wState.beta wState.x_cur (fun _ => 0),
              ll_cur := 0, accCount := wState.accCount + 1,
              chain := wState.chain
                ++ [propose wState.beta wState.x_cur (fun _ => 0)] }) ∧
      (¬ (1/2 : ℝ) ≤ alphaOf 0 wState.ll_cur →
        pcnStep wLL wState (fun _ => 0) (1/2)
          = .next { wState with chain := wState.chain ++ [wState.x_cur] }) ∧
      (∃ c a, pcnRun wLL wRand 0 2 { wState with chain := [] }
          = .converged c a ∧ c.length = 2)) :=
  ⟨⟨rfl, fun _ h => by cases h⟩,
    pcn_accept_reject_chain wLL wRand wState (fun _ => 0) (1/2) 0 rfl
      (fun _ h => by cases h) 2⟩

/-- Witness for C4 at a concrete configuration. -/
theorem pcn_forward_failure_auto_reject_witness :
    (wLLfail (propose wState.beta wState.x_cur (fun _ => 0))
        = LLResult.solveFailure ∧
      (0:ℝ) < 1/2 ∧ (∀ x, wLLfail x ≠ LLResult.dimMismatch)) ∧
    ((alphaOfExt none wState.ll_cur = 0 ∧
        ¬ (1/2 : ℝ) ≤ alphaOfExt none wState.ll_cur) ∧
      pcnStep wLLfail wState (fun _ => 0) (1/2)
        = .next { wState with chain := wState.chain ++ [wState.x_cur] } ∧
      (∃ c a, pcnRun wLLfail wRand 0 1
          { wState with chain := wState.chain ++ [wState.x_cur] }
          = .converged c a) ∧
      (∀ (ll2 : (Fin 1 → ℝ) → LLResult) (s2 : PCNState 1)
          (ξ2 : Fin 1 → ℝ) (u2 : ℝ),
          ll2 (propose s2.beta s2.x_cur ξ2) = LLResult.dimMismatch →
            pcnStep ll2 s2 ξ2 u2 = StepResult.fatal)) :=
  ⟨⟨rfl, by norm_num, fun _ h => by cases h⟩,
    pcn_forward_failure_auto_reject wLLfail wRand wState (fun _ => 0) (1/2)
      rfl (by norm_num) (fun _ h => by cases h) 0 1⟩

/-- Witness for C7 at a concrete configuration. -/
theorem beta_stays_bounded_witness :
    ((0:ℝ) < 1/2 ∧ (1/2:ℝ) ≤ 1 ∧ (1:ℝ) ≤ 2 ∧ (0:ℝ) < 1/2 ∧
      (1/2:ℝ) ≤ 1 ∧ (1/2:ℝ) ≤ 1 ∧ (1:ℝ) ≤ 1) ∧
    (∀ k, (1/2 : ℝ) ≤ betaSeq (1/2) (3/10) 2 (1/2) 1 (fun _ => 1) k ∧
      betaSeq (1/2) (3/10) 2 (1/2) 1 (fun _ => 1) k ≤ 1 ∧
      (1/2 : ℝ) / 2 < betaSeq (1/2) (3/10) 2 (1/2) 1 (fun _ => 1) k ∧
      0 < betaSeq (1/2) (3/10) 2 (1/2) 1 (fun _ => 1) k) :=
  ⟨by norm_num,
    beta_stays_bounded (1/2) (3/10) 2 (1/2) 1 (fun _ => 1) (by norm_num)
      (by norm_num) (by norm_num) (by norm_num) (by norm_num) (by norm_num)
      (by norm_num)⟩

/-- Witness for C8 at a concrete configuration. -/
theorem pcn_deterministic_witness :
    ((0:ℕ) = 0 ∧ (2:ℕ) = 2) ∧
    ((pcnRun wLL ((fun _ => wRand) 0) 0 2 wState).chainOf
        = (pcnRun wLL ((fun _ => wRand) 0) 0 2 wState).chainOf ∧
      (pcnRun wLL ((fun _ => wRand) 0) 0 2 wState).accOf
        = (pcnRun wLL ((fun _ => wRand) 0) 0 2 wState).accOf ∧
      pcnRun wLL ((fun _ => wRand) 0) 0 2 wState
        = pcnRun wLL ((fun _ => wRand) 0) 0 2 wState) :=
  ⟨⟨rfl, rfl⟩,
    pcn_deterministic wLL (fun _ => wRand) 0 0 2 2 wState rfl rfl⟩

/-- Modelled from the spec (`cuqi.distribution.GMRF` is not in the
repository): the order-1 first-difference operator on `dim`
coefficients with zero (Dirichlet) boundary handling:
`(L x)_0 = x_0` and `(L x)_i = x_i - x_(i-1)` for `i > 0`. -/
def diffL (n : ℕ) : Matrix (Fin n) (Fin n) ℝ :=
  Matrix.of fun i j =>
    (if i = j then 1 else 0) + (if (j : ℕ) + 1 = (i : ℕ) then -1 else 0)

/-- Modelled from the spec: the GMRF precision matrix for
`boundary_type='zero'`, `order=1`: `precision_scale * L^T L`. -/
def gmrfPrec (n : ℕ) (precision_scale : ℝ) : Matrix (Fin n) (Fin n) ℝ :=
  precision_scale • ((diffL n)ᵀ * diffL n)

lemma diffL_mulVec_zero {n : ℕ} (x : Fin n → ℝ) (h0 : 0 < n) :
    (diffL n *ᵥ x) ⟨0, h0⟩ = x ⟨0, h0⟩ := by
  unfold diffL Matrix.mulVec Matrix.dotProduct
  simp only [Matrix.of_apply, add_mul, Finset.sum_add_distrib, ite_mul,
    one_mul, zero_mul, neg_mul]
  rw [Finset.sum_ite_eq]
  simp only [Finset.mem_univ, if_true]
  have h2 : ∀ j : Fin n,
      (if (j : ℕ) + 1 = ((⟨0, h0⟩ : Fin n) : ℕ) then -x j else 0) = 0 := by
    intro j
    simp
  rw [Finset.sum_congr rfl fun j _ => h2 j]
  simp

lemma diffL_mulVec_succ {n : ℕ} (x : Fin n → ℝ) (k : ℕ) (hk : k + 1 < n) :
    (diffL n *ᵥ x) ⟨k + 1, hk⟩
      = x ⟨k + 1, hk⟩ - x ⟨k, Nat.lt_of_succ_lt hk⟩ := by
  unfold diffL Matrix.mulVec Matrix.dotProduct
  simp only [Matrix.of_apply, add_mul, Finset.sum_add_distrib, ite_mul,
    one_mul, zero_mul, neg_mul]
  rw [Finset.sum_ite_eq]
  simp only [Finset.mem_univ, if_true]
  have h2 : (Finset.univ : Finset (Fin n)).sum
      (fun j => if (j : ℕ) + 1 = ((⟨k + 1, hk⟩ : Fin n) : ℕ) then -x j else 0)
      = -x ⟨k, Nat.lt_of_succ_lt hk⟩ := by
    rw [Finset.sum_eq_single (⟨k, Nat.lt_of_succ_lt hk⟩ : Fin n)]
    · simp
    · intro j _ hj
      have : (j : ℕ) + 1 ≠ k + 1 := by
        intro hcontra
        apply hj
        apply Fin.ext
        show (j : ℕ) = k
        omega
      simp [this]
    · intro habs
      exact absurd (Finset.mem_univ _) habs
  rw [h2]
  ring

lemma diffL_mulVec_injective {n : ℕ} (x : Fin n → ℝ)
    (h : diffL n *ᵥ x = 0) : x = 0 := by
  have key : ∀ (k : ℕ) (hk : k < n), x ⟨k, hk⟩ = 0 := by
    intro k
    induction k with
    | zero =>
      intro hk
      have h0 := congrFun h ⟨0, hk⟩
      rw [diffL_mulVec_zero x hk] at h0
      simpa using h0
    | succ m IH =>
      intro hk
      have hm : m < n := Nat.lt_of_succ_lt hk
      have hstep := congrFun h ⟨m + 1, hk⟩
      rw [diffL_mulVec_succ x m hk] at hstep
      have hxm := IH hm
      simp only [Pi.zero_apply] at hstep
      rw [hxm] at hstep
      linarith
  funext i
  have := key (i : ℕ) i.isLt
  simpa [Fin.eta] using this

lemma gmrfPrec_quadform {n : ℕ} (δ : ℝ) (x : Fin n → ℝ) :
    Matrix.dotProduct x (gmrfPrec n δ *ᵥ x)
      = δ * Matrix.dotProduct (diffL n *ᵥ x) (diffL n *ᵥ x) := by
  unfold gmrfPrec
  rw [Matrix.smul_mulVec_assoc, Matrix.dotProduct_smul]
  rw [← Matrix.mulVec_mulVec, Matrix.dotProduct_mulVec, Matrix.vecMul_transpose]
  simp

/-- C5: for every `dim ≥ 2` and `precision_scale > 0`, the GMRF
precision matrix assembled with `boundary_type='zero'` and `order=1`
equals `precision_scale * L^T L` for the first-difference operator `L`,
and it is symmetric and positive-definite. -/
theorem gmrf_zero_order1_posdef (n : ℕ) (δ : ℝ) (hn : 2 ≤ n) (hδ : 0 < δ) :
    gmrfPrec n δ = δ • ((diffL n)ᵀ * diffL n) ∧
    (gmrfPrec n δ).IsSymm ∧ (gmrfPrec n δ).PosDef := by
  have hsymm : (gmrfPrec n δ).IsSymm := by
    unfold Matrix.IsSymm gmrfPrec
    rw [Matrix.transpose_smul, Matrix.transpose_mul, Matrix.transpose_transpose]
  refine ⟨rfl, hsymm, ?_, ?_⟩
  · rw [Matrix.IsHermitian, Matrix.conjTranspose_eq_transpose_of_trivial]
    exact hsymm
  · intro x hx
    have hLx : diffL n *ᵥ x ≠ 0 := fun habs => hx (diffL_mulVec_injective x habs)
    have hnn : 0 ≤ Matrix.dotProduct (diffL n *ᵥ x) (diffL n *ᵥ x) := by
      unfold Matrix.dotProduct
      exact Finset.sum_nonneg fun i _ => mul_self_nonneg _
    have hpos : 0 < Matrix.dotProduct (diffL n *ᵥ x) (diffL n *ᵥ x) := by
      rcases lt_or_eq_of_le hnn with h | h
      · exact h
      · exact absurd (Matrix.dotProduct_self_eq_zero.mp h.symm) hLx
    have hstar : star x = x := by
      funext i
      simp
    rw [hstar, gmrfPrec_quadform]
    exact mul_pos hδ hpos

/-- Witness for C5 at `dim = 2`, `precision_scale = 1`. -/
theorem gmrf_zero_order1_posdef_witness :
    ((2:ℕ) ≤ 2 ∧ (0:ℝ) < 1) ∧
    (gmrfPrec 2 1 = (1:ℝ) • ((diffL 2)ᵀ * diffL 2) ∧
      (gmrfPrec 2 1).IsSymm ∧ (gmrfPrec 2 1).PosDef) :=
  ⟨⟨le_refl 2, by norm_num⟩,
    gmrf_zero_order1_posdef 2 1 (le_refl 2) (by norm_num)⟩

end

/-- Modelled from the spec (`Samples.burnthin` is not in the
repository): keep every `Nt`-th element of a list, starting with the
first (indices `0, Nt, 2*Nt, ...`). -/
def everyNth {α : Type} (Nt : ℕ) : List α → List α
  | [] => []
  | a :: rest => a :: everyNth Nt (rest.drop (Nt - 1))
termination_by l => l.length
decreasing_by
  simp only [List.length_drop, List.length_cons]
  omega

/-- Modelled from the spec: `burnthin(Nb, Nt)` drops the first `Nb`
chain states and keeps every `Nt`-th of the remainder, returning a new
chain (the original is untouched: a pure transformation). -/
def burnthin {α : Type} (Nb Nt : ℕ) (s : List α) : List α :=
  everyNth Nt (s.drop Nb)

lemma everyNth_length_le {α : Type} (k : ℕ) :
    ∀ (m : ℕ) (l : List α), l.length ≤ m →
      (everyNth (k + 1) l).length = (l.length + k) / (k + 1) := by
  intro m
  induction m with
  | zero =>
    intro l hl
    match l with
    | [] =>
      rw [everyNth]
      simp [Nat.div_eq_of_lt (by omega : k < k + 1)]
  | succ m IH =>
    intro l hl
    match l with
    | [] =>
      rw [everyNth]
      simp [Nat.div_eq_of_lt (by omega : k < k + 1)]
    | a :: rest =>
      rw [everyNth]
      simp only [List.length_cons, Nat.add_sub_cancel]
      rw [IH (rest.drop k) (by simp [List.length_drop] at hl ⊢; omega)]
      simp only [List.length_drop]
      rcases le_or_lt k rest.length with h | h
      · rw [Nat.sub_add_cancel h]
        have heq : rest.length + 1 + k = rest.length + (k + 1) := by omega
        rw [heq, Nat.add_div_right _ (Nat.succ_pos k)]
      · have h1 : rest.length - k = 0 := by omega
        rw [h1]
        have h2 : (0 + k) / (k + 1) = 0 := Nat.div_eq_of_lt (by omega)
        have heq : rest.length + 1 + k = rest.length + (k + 1) := by omega
        rw [h2, heq, Nat.add_div_right _ (Nat.succ_pos k),
          Nat.div_eq_of_lt (by omega : rest.length < k + 1)]

lemma everyNth_length {α : Type} (k : ℕ) (l : List α) :
    (everyNth (k + 1) l).length = (l.length + k) / (k + 1) :=
  everyNth_length_le k l.length l le_rfl

lemma getD_drop_add {α : Type} (d : α) :
    ∀ (p : ℕ) (l : List α) (m : ℕ), (l.drop p).getD m d = l.getD (p + m) d := by
  intro p
  induction p with
  | zero => simp
  | succ q IH =>
    intro l m
    match l with
    | [] => simp
    | a :: rest =>
      rw [List.drop_succ_cons, IH rest m]
      have : q + 1 + m = (q + m) + 1 := by omega
      rw [this, List.getD_cons_succ]

lemma everyNth_getD_le {α : Type} (k : ℕ) (d : α) :
    ∀ (m : ℕ) (l : List α), l.length ≤ m → ∀ (i : ℕ),
      (everyNth (k + 1) l).getD i d = l.getD ((k + 1) * i) d := by
  intro m
  induction m with
  | zero =>
    intro l hl i
    match l with
    | [] => simp [everyNth]
  | succ m IH =>
    intro l hl i
    match l with
    | [] => simp [everyNth]
    | a :: rest =>
      rw [everyNth]
      simp only [Nat.add_sub_cancel]
      match i with
      | 0 => simp
      | j + 1 =>
        rw [List.getD_cons_succ,
          IH (rest.drop k) (by simp [List.length_drop] at hl ⊢; omega) j,
          getD_drop_add d k rest ((k + 1) * j)]
        have : (k + 1) * (j + 1) = (k + (k + 1) * j) + 1 := by ring
        rw [this, List.getD_cons_succ]

lemma everyNth_one {α : Type} : ∀ l : List α, everyNth 1 l = l := by
  intro l
  induction l with
  | nil => rw [everyNth]
  | cons a rest IH =>
    rw [everyNth]
    simp only [Nat.sub_self, List.drop_zero]
    rw [IH]

/-- C6: on a chain of length `Ns` with `Nb < Ns` and `Nt ≥ 1`,
`burnthin(Nb, Nt)` returns a chain of exactly `⌈(Ns - Nb) / Nt⌉`
elements, whose `i`-th element is the `(Nb + Nt*i)`-th element of the
original chain (drop the first `Nb`, keep every `Nt`-th of the rest);
it is pure (the input chain is left unchanged and a fresh list is
returned), and `burnthin(0, 1)` returns a chain equal to the
original. -/
theorem burnthin_spec {α : Type} (s : List α) (Nb Nt : ℕ)
    (hNb : Nb < s.length) (hNt : 1 ≤ Nt) :
    (burnthin Nb Nt s).length = (s.length - Nb) ⌈/⌉ Nt ∧
    (∀ (i : ℕ) (d : α), (burnthin Nb Nt s).getD i d = s.getD (Nb + Nt * i) d) ∧
    burnthin 0 1 s = s := by
  obtain ⟨k, rfl⟩ : ∃ k, Nt = k + 1 := ⟨Nt - 1, by omega⟩
  refine ⟨?_, ?_, ?_⟩
  · rw [burnthin, everyNth_length, List.length_drop,
      Nat.ceilDiv_eq_add_pred_div]
    congr 1
  · intro i d
    rw [burnthin, everyNth_getD_le k d (s.drop Nb).length (s.drop Nb) le_rfl i,
      getD_drop_add]
  · rw [burnthin, List.drop_zero, everyNth_one]

/-- Witness for C6 on the concrete chain `[10, 20, 30, 40, 50]` with
`Nb = 1`, `Nt = 2`. -/
theorem burnthin_spec_witness :
    ((1 < ([10, 20, 30, 40, 50] : List ℕ).length) ∧ 1 ≤ 2) ∧
    ((burnthin 1 2 ([10, 20, 30, 40, 50] : List ℕ)).length
        = (([10, 20, 30, 40, 50] : List ℕ).length - 1) ⌈/⌉ 2 ∧
      (∀ (i : ℕ) (d : ℕ),
        (burnthin 1 2 ([10, 20, 30, 40, 50] : List ℕ)).getD i d
          = ([10, 20, 30, 40, 50] : List ℕ).getD (1 + 2 * i) d) ∧
      burnthin 0 1 ([10, 20, 30, 40, 50] : List ℕ)
        = ([10, 20, 30, 40, 50] : List ℕ)) :=
  ⟨⟨by decide, by decide⟩,
    burnthin_spec ([10, 20, 30, 40, 50] : List ℕ) 1 2 (by decide) (by decide)⟩

end CuqiFenics
